import Mathlib

/-!
# Verification of the aigcguard fingerprint watermarking core

Shallow embedding of the repository's watermarking engine
(`algorithms/fingerprint_engine.py`), the corpus cache and candidate
matcher (`app/service/enhanced_watermark.py`), the text steganography
codec (`app/service/text_watermark.py`) and the video sampler
(`app/service/video_watermark.py`), together with theorems settling the
spec claims about them.

Conventions:
* Python floats are modelled as exact rationals (`ℚ`); the claims under
  study are about exact arithmetic, ordering and control flow, not
  floating-point rounding.
* `np.round` / Python `round` use round-half-to-even; `npRound` below
  reproduces that tie-breaking exactly.
* Python strings are modelled as `List Char` internally, `String` at
  result boundaries.
-/

namespace AigcGuard

/-- `np.round` / Python `round` on an exact rational: nearest integer,
ties to even (banker's rounding). -/
def npRound (q : ℚ) : ℤ :=
  let f : ℤ := ⌊q⌋
  let r : ℚ := q - f
  if r < 1/2 then f
  else if 1/2 < r then f + 1
  else if f % 2 = 0 then f else f + 1

theorem npRound_intCast (n : ℤ) : npRound (n : ℚ) = n := by
  unfold npRound
  simp [Int.floor_intCast]

/-- Lowercase ASCII conversion as used by `str.lower()` on hex digits. -/
def asciiLower (c : Char) : Char :=
  if 'A' ≤ c ∧ c ≤ 'Z' then Char.ofNat (c.toNat + 32) else c

/-- `_HEX2BIN.get(c, '')`: a lowercase hex digit maps to its 4-bit
binary string, any other character maps to the empty string. -/
def hex2bin (c : Char) : List Char :=
  match c with
  | '0' => ['0','0','0','0'] | '1' => ['0','0','0','1']
  | '2' => ['0','0','1','0'] | '3' => ['0','0','1','1']
  | '4' => ['0','1','0','0'] | '5' => ['0','1','0','1']
  | '6' => ['0','1','1','0'] | '7' => ['0','1','1','1']
  | '8' => ['1','0','0','0'] | '9' => ['1','0','0','1']
  | 'a' => ['1','0','1','0'] | 'b' => ['1','0','1','1']
  | 'c' => ['1','1','0','0'] | 'd' => ['1','1','0','1']
  | 'e' => ['1','1','1','0'] | 'f' => ['1','1','1','1']
  | _ => []

/-- `_BIN2HEX.get(chunk)`: a 4-character binary string maps to its hex
digit; anything else (wrong length or non-binary characters) to `none`. -/
def bin2hex (chunk : List Char) : Option Char :=
  match chunk with
  | ['0','0','0','0'] => some '0' | ['0','0','0','1'] => some '1'
  | ['0','0','1','0'] => some '2' | ['0','0','1','1'] => some '3'
  | ['0','1','0','0'] => some '4' | ['0','1','0','1'] => some '5'
  | ['0','1','1','0'] => some '6' | ['0','1','1','1'] => some '7'
  | ['1','0','0','0'] => some '8' | ['1','0','0','1'] => some '9'
  | ['1','0','1','0'] => some 'a' | ['1','0','1','1'] => some 'b'
  | ['1','1','0','0'] => some 'c' | ['1','1','0','1'] => some 'd'
  | ['1','1','1','0'] => some 'e' | ['1','1','1','1'] => some 'f'
  | _ => none

/-- `FingerprintEngine._hex_to_binary`: lowercase the input, map each
hex digit to four binary characters through the lookup table, dropping
unknown characters. -/
def hex_to_binary (s : List Char) : List Char :=
  s.flatMap (fun c => hex2bin (asciiLower c))

/-- `FingerprintEngine._binary_to_hex`: walk `range(0, len - 3, 4)`
(i.e. one index per complete 4-character group), look each group up in
the table and keep the hits.  `range(0, len - 3, 4)` has exactly
`len / 4` elements, so the groups are the complete 4-blocks. -/
def binary_to_hex (b : List Char) : List Char :=
  ((List.range (b.length / 4)).map
    (fun k => bin2hex ((b.drop (4 * k)).take 4))).reduceOption

/-- The sixteen lowercase hex digits in ascending value order
(`Nat.digitChar` maps 0–15 to exactly these characters). -/
def hexDigits : List Char := (List.range 16).map Nat.digitChar

/-- A character of a lowercase hexadecimal string. -/
def isLowerHexDigit (c : Char) : Prop := c ∈ hexDigits

instance (c : Char) : Decidable (isLowerHexDigit c) := by
  unfold isLowerHexDigit; infer_instance

theorem bin2hex_hex2bin (c : Char) (hc : isLowerHexDigit c) :
    bin2hex (hex2bin c) = some c :=
  (by decide : ∀ x ∈ hexDigits, bin2hex (hex2bin x) = some x) c hc

theorem asciiLower_of_lowerHex (c : Char) (hc : isLowerHexDigit c) :
    asciiLower c = c :=
  (by decide : ∀ x ∈ hexDigits, asciiLower x = x) c hc

/-- Numeric value of a binary character (`'1'` ↦ 1, anything else 0). -/
def bitVal (c : Char) : ℕ := if c = '1' then 1 else 0

/-- Value of a binary character group, most significant bit first. -/
def groupVal (g : List Char) : ℕ := g.foldl (fun acc c => 2 * acc + bitVal c) 0

/-- Spec-side hex digit of a 4-bit value. -/
def specHexDigit (n : ℕ) : Char := hexDigits.getD n '0'

theorem map_reduceOption_eq {α β : Type} (l : List α) (f : α → Option β)
    (g : α → β) (h : ∀ a ∈ l, f a = some (g a)) :
    (l.map f).reduceOption = l.map g := by
  induction l with
  | nil => rfl
  | cons a t ih =>
    rw [List.map_cons, h a (List.mem_cons_self a t), List.map_cons,
      List.reduceOption_cons_of_some, ih (fun x hx => h x (List.mem_cons_of_mem a hx))]

theorem bin2hex_of_binary4 (g : List Char) (hg : g.length = 4)
    (hb : ∀ c ∈ g, c = '0' ∨ c = '1') :
    bin2hex g = some (specHexDigit (groupVal g)) := by
  match g, hg with
  | [a, b, c, d], _ =>
    have ha := hb a (by simp)
    have hbb := hb b (by simp)
    have hc := hb c (by simp)
    have hd := hb d (by simp)
    rcases ha with rfl|rfl <;> rcases hbb with rfl|rfl <;>
      rcases hc with rfl|rfl <;> rcases hd with rfl|rfl <;> rfl

theorem hex2bin_length (c : Char) (hc : isLowerHexDigit c) :
    (hex2bin c).length = 4 :=
  (by decide : ∀ x ∈ hexDigits, (hex2bin x).length = 4) c hc

theorem binary_to_hex_append4 (g b : List Char) (hg : g.length = 4) :
    binary_to_hex (g ++ b) = (bin2hex g).toList ++ binary_to_hex b := by
  unfold binary_to_hex
  have hlen : (g ++ b).length / 4 = (b.length / 4) + 1 := by
    simp [List.length_append, hg]
  rw [hlen, List.range_succ_eq_map, List.map_cons]
  have h0 : ((g ++ b).drop (4 * 0)).take 4 = g := by
    rw [Nat.mul_zero, List.drop_zero, ← hg, List.take_left]
  have hsucc : ∀ k, (((g ++ b).drop (4 * Nat.succ k)).take 4)
      = ((b.drop (4 * k)).take 4) := by
    intro k
    have : 4 * Nat.succ k = g.length + 4 * k := by simp [hg]; omega
    rw [this, List.drop_append]
  rw [h0]
  have hmap : (List.map Nat.succ (List.range (b.length / 4))).map
      (fun k => bin2hex (((g ++ b).drop (4 * k)).take 4))
      = (List.range (b.length / 4)).map
        (fun k => bin2hex ((b.drop (4 * k)).take 4)) := by
    rw [List.map_map]
    exact List.map_congr_left (fun k _ => by simp [hsucc k])
  rw [hmap]
  cases hb2 : bin2hex g with
  | none => simp [List.reduceOption_cons_of_none]
  | some h => simp [List.reduceOption_cons_of_some]

/-- **C8** — The hex → binary → hex round trip is the identity on
lowercase hexadecimal strings, and on a pure binary string the
conversion to hex turns every complete 4-bit group, in order, into the
corresponding hex digit, dropping only the trailing group of fewer than
4 bits. -/
theorem hex_binary_roundtrip_and_grouping (s b : List Char)
    (hs : ∀ c ∈ s, isLowerHexDigit c)
    (hb : ∀ c ∈ b, c = '0' ∨ c = '1') :
    binary_to_hex (hex_to_binary s) = s ∧
    binary_to_hex b = (List.range (b.length / 4)).map
      (fun k => specHexDigit (groupVal ((b.drop (4 * k)).take 4))) := by
  constructor
  · induction s with
    | nil => rfl
    | cons c t ih =>
      have hc := hs c (by simp)
      have hrest : ∀ x ∈ t, isLowerHexDigit x := fun x hx => hs x (by simp [hx])
      have : hex_to_binary (c :: t) = hex2bin c ++ hex_to_binary t := by
        simp [hex_to_binary, asciiLower_of_lowerHex c hc]
      rw [this, binary_to_hex_append4 _ _ (hex2bin_length c hc),
        bin2hex_hex2bin c hc, ih hrest]
      rfl
  · unfold binary_to_hex
    apply map_reduceOption_eq
    intro k hk
    simp only [List.mem_range] at hk
    have hlen4 : ((b.drop (4 * k)).take 4).length = 4 := by
      simp only [List.length_take, List.length_drop]
      omega
    exact bin2hex_of_binary4 _ hlen4
      (fun c hc => hb c (List.mem_of_mem_drop (List.mem_of_mem_take hc)))

/-- Closed-form witness for the round-trip theorem. -/
theorem hex_binary_roundtrip_witness :
    binary_to_hex (hex_to_binary ['a','0','f','3']) = ['a','0','f','3'] ∧
    binary_to_hex ['1','0','0','1','1','1'] = (List.range (6 / 4)).map
      (fun k => specHexDigit (groupVal (((['1','0','0','1','1','1'] : List Char).drop (4 * k)).take 4))) :=
  hex_binary_roundtrip_and_grouping ['a','0','f','3'] ['1','0','0','1','1','1']
    (by decide) (by decide)

/-! ## Block position enumeration (`_block_positions`) -/

/-- Python `range(0, stop, bs)` for a possibly negative `stop` and a
positive step `bs`: the multiples of `bs` in `[0, stop)`. -/
def rangeList (stop : ℤ) (bs : ℕ) : List ℕ :=
  (List.range ((stop.toNat + bs - 1) / bs)).map (· * bs)

/-- `FingerprintEngine._block_positions(h, w, bs, n)`: row-major scan of
start coordinates `range(0, h - bs, bs) × range(0, w - bs, bs)`,
stopping (early `return`) once `min(n, total)` positions were emitted,
where `total = len(range(0, h - bs, bs)) * cols_per_row` (the two
`if dim > bs else 0` guards in the source are redundant with the empty
ranges and are kept here as the `if` tests). -/
def block_positions (h w bs n : ℕ) : List (ℕ × ℕ) :=
  let col_positions := rangeList ((w : ℤ) - (bs : ℤ)) bs
  let cols_per_row := if (bs : ℤ) < (w : ℤ) then col_positions.length else 0
  let row_positions := rangeList ((h : ℤ) - (bs : ℤ)) bs
  let total := if (bs : ℤ) < (h : ℤ) then row_positions.length * cols_per_row else 0
  let n' := min n total
  (row_positions.flatMap (fun r => col_positions.map (fun c => (r, c)))).take n'

/-- The claim's enumeration, written from the spec's words: the
row-major list of all non-overlapping `bs × bs` blocks that *fit* in an
`h × w` plane (start coordinates aligned to `bs` with the whole block
inside the plane), truncated to the first `n`. -/
def specPositionsClaim (h w bs n : ℕ) : List (ℕ × ℕ) :=
  ((((List.range h).filter (fun r => r % bs = 0 ∧ r + bs ≤ h)).flatMap
    (fun r => ((List.range w).filter (fun c => c % bs = 0 ∧ c + bs ≤ w)).map
      (fun c => (r, c))))).take n

/-- The amended enumeration: as `specPositionsClaim`, but a block is
enumerated only when its start coordinate is *strictly* below
`dim - bs`; blocks touching the final aligned row/column of an
exact-multiple plane are excluded. -/
def specPositionsAmended (h w bs n : ℕ) : List (ℕ × ℕ) :=
  ((((List.range h).filter (fun r => r % bs = 0 ∧ r + bs < h)).flatMap
    (fun r => ((List.range w).filter (fun c => c % bs = 0 ∧ c + bs < w)).map
      (fun c => (r, c))))).take n

theorem filter_multiples_eq_rangeList (bs : ℕ) (hbs : 0 < bs) (m : ℕ) :
    (List.range m).filter (fun r => decide (r % bs = 0)) =
      (List.range ((m + bs - 1) / bs)).map (· * bs) := by
  induction m with
  | zero =>
    have : (bs - 1) / bs = 0 := Nat.div_eq_of_lt (by omega)
    simp [this]
  | succ m ih =>
    rw [List.range_succ, List.filter_append, ih]
    by_cases hdvd : m % bs = 0
    · obtain ⟨q, rfl⟩ := Nat.dvd_of_mod_eq_zero hdvd
      have hq1 : (bs * q + bs - 1) / bs = q := by
        have h0 : (bs - 1) / bs = 0 := Nat.div_eq_of_lt (by omega)
        rw [show bs * q + bs - 1 = (bs - 1) + bs * q by omega,
          Nat.add_mul_div_left _ _ hbs, h0]
        omega
      have hq2 : (bs * q + 1 + bs - 1) / bs = q + 1 := by
        rw [show bs * q + 1 + bs - 1 = bs * (q + 1) by
            rw [Nat.mul_add, Nat.mul_one]; omega,
          Nat.mul_div_cancel_left _ hbs]
      have hfil : (List.filter (fun r => decide (r % bs = 0)) [bs * q]) = [bs * q] := by
        simp [Nat.mul_mod_right]
      rw [hfil, hq1, hq2, List.range_succ, List.map_append]
      simp [Nat.mul_comm]
    · have hfil : (List.filter (fun r => decide (r % bs = 0)) [m]) = [] := by
        simp [hdvd]
      have hK : (m + 1 + bs - 1) / bs = (m + bs - 1) / bs := by
        rw [show m + 1 + bs - 1 = (m + bs - 1) + 1 by omega, Nat.succ_div]
        have hnd : ¬ bs ∣ (m + bs - 1 + 1) := by
          rw [show m + bs - 1 + 1 = bs + m by omega]
          intro hcontra
          exact hdvd (Nat.dvd_iff_mod_eq_zero.mp
            ((Nat.dvd_add_right (dvd_refl bs)).mp hcontra))
        simp [hnd]
      rw [hfil, hK, List.append_nil]

theorem filter_range_strict (bs : ℕ) (hbs : 0 < bs) (d : ℕ) :
    (List.range d).filter (fun r => decide (r % bs = 0) && decide (r + bs < d)) =
      rangeList ((d : ℤ) - (bs : ℤ)) bs := by
  have hsplit : (List.range d).filter
      (fun r => decide (r % bs = 0) && decide (r + bs < d)) =
      (List.range (d - bs)).filter (fun r => decide (r % bs = 0)) := by
    rcases Nat.le_total d bs with hle | hle
    · have h1 : (List.range d).filter
          (fun r => decide (r % bs = 0) && decide (r + bs < d)) = [] := by
        apply List.filter_eq_nil_iff.mpr
        intro a ha
        simp only [List.mem_range] at ha
        simp only [Bool.and_eq_true, decide_eq_true_eq, not_and]
        intro _; omega
      have h2 : d - bs = 0 := by omega
      simp [h1, h2]
    · have hd : d = (d - bs) + bs := by omega
      rw [hd]
      simp only [Nat.add_sub_cancel]
      rw [List.range_add, List.filter_append]
      have h2 : (List.filter
          (fun r => decide (r % bs = 0) && decide (r + bs < (d - bs) + bs))
          ((List.range bs).map (fun j => (d - bs) + j))) = [] := by
        apply List.filter_eq_nil_iff.mpr
        intro a ha
        simp only [List.mem_map, List.mem_range] at ha
        obtain ⟨j, hj, rfl⟩ := ha
        simp only [Bool.and_eq_true, decide_eq_true_eq, not_and]
        intro _; omega
      rw [h2, List.append_nil]
      apply List.filter_congr
      intro x hx
      simp only [List.mem_range] at hx
      have hxb : x + bs < d - bs + bs := by omega
      simp [hxb]
  rw [hsplit, filter_multiples_eq_rangeList bs hbs]
  unfold rangeList
  have : ((d : ℤ) - (bs : ℤ)).toNat = d - bs := by omega
  rw [this]

theorem rangeList_of_nonpos (stop : ℤ) (bs : ℕ) (hstop : stop ≤ 0) :
    rangeList stop bs = [] := by
  unfold rangeList
  have h1 : stop.toNat = 0 := Int.toNat_of_nonpos hstop
  have h2 : (0 + bs - 1) / bs = 0 := by
    rcases Nat.eq_zero_or_pos bs with rfl | hbs
    · simp
    · exact Nat.div_eq_of_lt (by omega)
  rw [h1, h2]
  rfl

theorem grid_length {α β : Type} (l₁ : List α) (l₂ : List β)
    (f : α → β → α × β) :
    (l₁.flatMap (fun r => l₂.map (fun c => f r c))).length
      = l₁.length * l₂.length := by
  induction l₁ with
  | nil => simp
  | cons a t ih => simp [ih, Nat.succ_mul, Nat.add_comm]

theorem take_min {α : Type} (n : ℕ) (l : List α) :
    l.take (min n l.length) = l.take n := by
  rcases Nat.le_total n l.length with hle | hle
  · rw [Nat.min_eq_left hle]
  · rw [Nat.min_eq_right hle, List.take_length, List.take_of_length_le hle]

/-- **C2 (amended)** — `_block_positions h w bs n` returns, in row-major
order, the first `n` (or all, when fewer exist) start coordinates that
are aligned to `bs` and *strictly* below `dim - bs` in each dimension;
unlike the claim, a block whose start coordinate equals `dim - bs`
(in particular the single block of an exact `bs × bs` plane) is never
enumerated. -/
theorem block_positions_amended (h w bs n : ℕ) (hbs : 0 < bs) :
    block_positions h w bs n = specPositionsAmended h w bs n := by
  unfold block_positions specPositionsAmended
  simp only [Bool.decide_and, filter_range_strict bs hbs]
  set rows := rangeList ((h : ℤ) - (bs : ℤ)) bs with hrows
  set cols := rangeList ((w : ℤ) - (bs : ℤ)) bs with hcols
  set grid := rows.flatMap (fun r => cols.map (fun c => (r, c))) with hgrid
  have htot : (if (bs : ℤ) < (h : ℤ) then
      rows.length * (if (bs : ℤ) < (w : ℤ) then cols.length else 0) else 0)
      = grid.length := by
    rw [hgrid, grid_length rows cols (fun r c => (r, c))]
    by_cases hh : (bs : ℤ) < (h : ℤ)
    · simp only [if_pos hh]
      by_cases hw : (bs : ℤ) < (w : ℤ)
      · rw [if_pos hw]
      · rw [if_neg hw]
        have hc0 : cols = [] := by
          rw [hcols]
          exact rangeList_of_nonpos _ _ (by omega)
        rw [hc0]
        simp
    · simp only [if_neg hh]
      have hr0 : rows = [] := by
        rw [hrows]
        exact rangeList_of_nonpos _ _ (by omega)
      rw [hr0]
      simp
  rw [htot, take_min]

/-- **C2 (counterexample)** — one `8 × 8` block fits exactly in an
`8 × 8` plane, so the claim requires the enumeration to return it, but
`_block_positions` returns no position at all. -/
theorem block_positions_counterexample :
    block_positions 8 8 8 1 = [] ∧ specPositionsClaim 8 8 8 1 = [(0, 0)] := by
  constructor <;> rfl

/-- Witness instantiating the amended block-position theorem. -/
theorem block_positions_amended_witness :
    0 < 8 ∧ block_positions 17 17 8 3 = specPositionsAmended 17 17 8 3 :=
  ⟨by norm_num, block_positions_amended 17 17 8 3 (by norm_num)⟩

/-! ## QIM modulation / demodulation (`embed_dct` lines 189–192,
`extract_dct` lines 234–239, at the (2,3) coefficient) -/

/-- `base = np.round(coeffs / Q) * Q; coeff := base + bit * (Q / 2)` —
the QIM lattice selection applied to one coefficient. -/
def embedCoeff (c : ℚ) (b : ℤ) (Q : ℚ) : ℚ :=
  (npRound (c / Q) : ℚ) * Q + (b : ℚ) * (Q / 2)

/-- `np.round(coeffs / (Q / 2)).astype(int32) % 2` — half-step QIM
demodulation of one coefficient (numpy `%` is floor-mod, i.e. `emod`). -/
def extractBit (c : ℚ) (Q : ℚ) : ℤ :=
  (npRound (c / (Q / 2))).emod 2

/-- **C3** — With exact arithmetic, for any coefficient `c`, bit
`b ∈ {0,1}` and quantization step `Q > 0`, extracting after embedding
recovers exactly the embedded bit: half-step demodulation inverts the
lattice selection blindly. -/
theorem qim_extract_inverts_embed (c Q : ℚ) (b : ℤ)
    (hQ : 0 < Q) (hb : b = 0 ∨ b = 1) :
    extractBit (embedCoeff c b Q) Q = b := by
  have hQ2 : Q / 2 ≠ 0 := by positivity
  set k : ℤ := npRound (c / Q) with hk
  have harg : embedCoeff c b Q / (Q / 2) = ((2 * k + b : ℤ) : ℚ) := by
    unfold embedCoeff
    field_simp
    ring
  unfold extractBit
  rw [harg, npRound_intCast]
  show (2 * k + b) % 2 = b
  omega

/-- Closed-form witness: embedding bit 1 into coefficient 37 at step 30
and extracting recovers 1. -/
theorem qim_extract_inverts_embed_witness :
    extractBit (embedCoeff 37 1 30) 30 = 1 :=
  qim_extract_inverts_embed 37 30 1 (by norm_num) (Or.inr rfl)

/-! ## Blind extraction and the Adaptive Recovery Controller
(`extract_dct`, `extract_dct_adaptive`) -/

/-- A decoded luma plane, for extraction purposes: dimensions plus the
(2,3) DCT coefficient of the 8×8 block starting at each pixel
coordinate.  The colour conversion and the orthogonal transform are
fixed numeric kernels (`cv2.cvtColor`, the `_DCT8` matrices); every
claim under study depends on the plane only through the coefficient
each block yields, so the plane is modelled at that level. -/
structure YPlane where
  h : ℕ
  w : ℕ
  coeff : ℕ × ℕ → ℚ

/-- `FingerprintEngine.extract_dct(image, length)`: enumerate block
positions, demodulate each block's (2,3) coefficient with
`np.round(c / (Q/2)).astype(int32) % 2`, join the bit characters and
convert to hex; the empty string when no block fits. -/
def extract_dct (img : YPlane) (bs : ℕ) (Q : ℚ) (length : ℕ) : List Char :=
  let positions := block_positions img.h img.w bs length
  if positions.length = 0 then []
  else
    let bit_vals := positions.map (fun p => (npRound (img.coeff p / (Q / 2))).emod 2)
    binary_to_hex (bit_vals.map (fun b => if b = 1 then '1' else '0'))

/-- `sum(1 for c in fp if c != '0')` — the signal strength of an
extracted fingerprint: its number of non-zero hex characters. -/
def signalStrength (fp : List Char) : ℕ :=
  fp.countP (fun c => decide (c ≠ '0'))

/-- `FingerprintEngine.LEGACY_QIM_STEPS`. -/
def LEGACY_QIM_STEPS : List ℚ := [8]

/-- The engine's sole mutable field relevant here: `self.QIM_STEP`
(class default 30.0, shadowed by an instance attribute when written). -/
structure EngineState where
  qim_step : ℚ
deriving DecidableEq

/-- Running best of the fallback loop in `extract_dct_adaptive`. -/
structure BestResult where
  fp : List Char
  strength : ℕ
  q : ℚ
deriving DecidableEq

/-- The `for legacy_q in self.LEGACY_QIM_STEPS` loop body of
`extract_dct_adaptive`: write `self.QIM_STEP = legacy_q`, re-extract
with the engine's (now mutated) step, keep the strictly stronger
result.  The third component records every value written to the
engine's `QIM_STEP` field, in order. -/
def adaptiveLoop (img : YPlane) (bs len : ℕ) :
    List ℚ → BestResult → EngineState → List ℚ →
    BestResult × EngineState × List ℚ
  | [], best, s, writes => (best, s, writes)
  | q :: rest, best, _s, writes =>
    let s' : EngineState := ⟨q⟩
    let writes' := writes ++ [q]
    let legacy_fp := extract_dct img bs s'.qim_step len
    let legacy_strength := signalStrength legacy_fp
    if best.strength < legacy_strength then
      adaptiveLoop img bs len rest ⟨legacy_fp, legacy_strength, q⟩ s' writes'
    else
      adaptiveLoop img bs len rest best s' writes'

/-- `FingerprintEngine.extract_dct_adaptive(image, length)`: extract
with the current step; if the strength reaches 15 return immediately,
otherwise probe each legacy step by overwriting `self.QIM_STEP`
(recorded in the write trace) and restore the saved step in the
`finally` block.  Returns `((fingerprint, used_step), final engine
state, trace of writes to QIM_STEP)`. -/
def extract_dct_adaptive (img : YPlane) (bs len : ℕ) (s₀ : EngineState) :
    (List Char × ℚ) × EngineState × List ℚ :=
  let fp := extract_dct img bs s₀.qim_step len
  let strength := signalStrength fp
  if 15 ≤ strength then ((fp, s₀.qim_step), s₀, [])
  else
    let saved := s₀.qim_step
    let r := adaptiveLoop img bs len LEGACY_QIM_STEPS ⟨fp, strength, saved⟩ s₀ []
    ((r.1.fp, r.1.q), ⟨saved⟩, r.2.2 ++ [saved])

theorem adaptiveLoop_strength_invariant (img : YPlane) (bs len : ℕ)
    (ladder : List ℚ) (best : BestResult) (s : EngineState) (writes : List ℚ)
    (hb : best.strength = signalStrength best.fp) :
    let r := adaptiveLoop img bs len ladder best s writes
    r.1.strength = signalStrength r.1.fp ∧ best.strength ≤ r.1.strength := by
  induction ladder generalizing best s writes with
  | nil => exact ⟨hb, Nat.le_refl _⟩
  | cons q rest ih =>
    simp only [adaptiveLoop]
    by_cases hlt : best.strength <
        signalStrength (extract_dct img bs (EngineState.mk q).qim_step len)
    · rw [if_pos hlt]
      have hih := ih ⟨extract_dct img bs (EngineState.mk q).qim_step len,
        signalStrength (extract_dct img bs (EngineState.mk q).qim_step len), q⟩
        ⟨q⟩ (writes ++ [q]) rfl
      exact ⟨hih.1, Nat.le_trans (Nat.le_of_lt hlt) hih.2⟩
    · rw [if_neg hlt]
      exact ih best ⟨q⟩ (writes ++ [q]) hb

/-- **C4** — The Adaptive Recovery Controller never regresses: the
fingerprint it returns is at least as strong as the plain
`extract_dct` run at the engine's current step, and when that primary
extraction already reaches the strength threshold (15), the reported
`step_used` is the current step. -/
theorem adaptive_never_regresses (img : YPlane) (bs len : ℕ) (s₀ : EngineState) :
    signalStrength (extract_dct img bs s₀.qim_step len) ≤
      signalStrength (extract_dct_adaptive img bs len s₀).1.1 ∧
    (15 ≤ signalStrength (extract_dct img bs s₀.qim_step len) →
      (extract_dct_adaptive img bs len s₀).1.2 = s₀.qim_step) := by
  unfold extract_dct_adaptive
  by_cases hs : 15 ≤ signalStrength (extract_dct img bs s₀.qim_step len)
  · rw [if_pos hs]
    exact ⟨Nat.le_refl _, fun _ => rfl⟩
  · rw [if_neg hs]
    refine ⟨?_, fun h => absurd h hs⟩
    have hinv := adaptiveLoop_strength_invariant img bs len LEGACY_QIM_STEPS
      ⟨extract_dct img bs s₀.qim_step len,
        signalStrength (extract_dct img bs s₀.qim_step len), s₀.qim_step⟩ s₀ [] rfl
    have h2 := hinv.2
    rw [hinv.1] at h2
    exact h2

/-- An all-nonzero plane: every block coefficient sits exactly on the
odd half-step lattice point for Q = 30, so the primary extraction is
all `f` characters and the threshold is met. -/
def strongPlane : YPlane := ⟨65, 65, fun _ => 15⟩

/-- Witness for C4 at a concrete strong plane: the primary strength is
16 ≥ 15 and the controller reports the current step 30. -/
theorem adaptive_never_regresses_witness :
    signalStrength (extract_dct strongPlane 8 (30 : ℚ) 256) ≤
      signalStrength (extract_dct_adaptive strongPlane 8 256 ⟨30⟩).1.1 ∧
    (extract_dct_adaptive strongPlane 8 256 ⟨30⟩).1.2 = 30 :=
  ⟨(adaptive_never_regresses strongPlane 8 256 ⟨30⟩).1,
    (adaptive_never_regresses strongPlane 8 256 ⟨30⟩).2 (by with_unfolding_all decide)⟩

/-- An image recovering no signal at any probed step: every block
coefficient is 0. -/
def zeroPlane : YPlane := ⟨17, 17, fun _ => 0⟩

/-- **C1** — The claim is violated by the code: on any input whose
primary extraction is weak, `extract_dct_adaptive` *does* write the
engine's `QIM_STEP` field, once per fallback probe and once to restore
it.  At the zero plane the write trace is `[8, 30]`: during execution
the shared field holds 8 ≠ 30, the original value being restored only
at the end (the `finally` block), not held throughout. -/
theorem adaptive_mutates_qim_step :
    (extract_dct_adaptive zeroPlane 8 256 ⟨30⟩).2.2 = [8, 30] ∧
    (extract_dct_adaptive zeroPlane 8 256 ⟨30⟩).2.1 = ⟨30⟩ ∧
    ((8 : ℚ) ≠ 30) := by
  refine ⟨by with_unfolding_all decide, by with_unfolding_all decide, by norm_num⟩

/-! ## Text steganography codec (`TextWatermarkService`) -/

/-- Zero-width space — encodes bit 0. -/
def ZW_SPA : Char := Char.ofNat 0x200B

/-- Zero-width non-joiner — encodes bit 1. -/
def ZW_NON : Char := Char.ofNat 0x200C

/-- Zero-width joiner — the boundary marker. -/
def ZW_JOIN : Char := Char.ofNat 0x200D

/-- Python `format(ord(char), '08b')`: binary digits, zero-padded on
the left to at least 8 characters. -/
def format08b (n : ℕ) : List Char :=
  let s := Nat.toDigits 2 n
  List.replicate (8 - s.length) '0' ++ s

/-- `TextWatermarkService.embed(text, watermark_str)`. -/
def text_embed (text wm : List Char) : List Char :=
  if text = [] then text
  else
    let binary := wm.flatMap (fun c => format08b c.toNat)
    let hidden := binary.map (fun b => if b = '0' then ZW_SPA else ZW_NON)
    let encoded := ZW_JOIN :: (hidden ++ [ZW_JOIN])
    let insert_pos := min 1 text.length
    text.take insert_pos ++ encoded ++ text.drop insert_pos

/-- The bit-recovery loop of `extract`: zero-width space → `'0'`,
zero-width non-joiner → `'1'`, any other character skipped. -/
def bitsFromHidden (hidden : List Char) : List Char :=
  hidden.filterMap (fun c =>
    if c = ZW_SPA then some '0' else if c = ZW_NON then some '1' else none)

/-- `[binary_str[i:i+8] for i in range(0, len(binary_str), 8)]` —
all 8-character chunks including a trailing partial chunk
(`range(0, len, 8)` has `⌈len/8⌉` elements). -/
def chunks8 (l : List Char) : List (List Char) :=
  (List.range ((l.length + 7) / 8)).map (fun k => (l.drop (8 * k)).take 8)

/-- `TextWatermarkService.extract(text)`.  The `try/except` around
`chr(int(b, 2))` can never fire — every chunk is a nonempty string of
`'0'`/`'1'` of length ≤ 8, so `int` succeeds and the value is < 256 —
hence the decode step is modelled as total. -/
def text_extract (text : List Char) : String :=
  if text = [] then ""
  else
    match text.findIdx? (fun c => c == ZW_JOIN) with
    | none => "No watermark found"
    | some start =>
      let rest := text.drop (start + 1)
      match rest.findIdx? (fun c => c == ZW_JOIN) with
      | none => "Corrupted watermark"
      | some stop =>
        let hidden := rest.take stop
        String.mk ((chunks8 (bitsFromHidden hidden)).map
          (fun b => Char.ofNat (groupVal b)))

theorem findIdx?_eq_none_of_not_mem (l : List Char) (a : Char)
    (h : a ∉ l) : l.findIdx? (fun c => c == a) = none :=
  List.findIdx?_eq_none_iff.mpr
    (fun _x hx => beq_eq_false_iff_ne.mpr (fun hxa => h (hxa ▸ hx)))

theorem text_extract_cons_ne (c : Char) (rest : List Char)
    (hc : c ≠ ZW_JOIN) (hrne : rest ≠ []) :
    text_extract (c :: rest) = text_extract rest := by
  unfold text_extract
  rw [if_neg (List.cons_ne_nil c rest), if_neg hrne, List.findIdx?_cons]
  have hcb : (c == ZW_JOIN) = false := by simp [hc]
  rw [hcb]
  simp only [Bool.false_eq_true, if_false, List.findIdx?_succ]
  cases hf : rest.findIdx? (fun x => x == ZW_JOIN) with
  | none => rfl
  | some i => rfl

theorem text_extract_one_marker (t : List Char) (h : t.count ZW_JOIN = 1) :
    text_extract t = "Corrupted watermark" := by
  induction t with
  | nil => simp at h
  | cons c rest ih =>
    by_cases hc : c = ZW_JOIN
    · subst hc
      have hrest : ZW_JOIN ∉ rest := by
        rw [List.count_cons_self] at h
        exact List.count_eq_zero.mp (by omega)
      unfold text_extract
      rw [if_neg (List.cons_ne_nil _ _), List.findIdx?_cons, if_pos (by rfl)]
      simp only [findIdx?_eq_none_of_not_mem rest ZW_JOIN hrest,
        List.drop_succ_cons, List.drop_zero]
    · have hcr : rest.count ZW_JOIN = 1 := by
        rwa [List.count_cons_of_ne (fun hh => hc hh.symm)] at h
      have hrne : rest ≠ [] := by
        intro hnil
        rw [hnil] at hcr
        simp at hcr
      rw [text_extract_cons_ne c rest hc hrne]
      exact ih hcr

/-- **C7 (amended)** — For every *nonempty* input, text extraction
returns the `"No watermark found"` sentinel whenever the text contains
no boundary marker and the `"Corrupted watermark"` sentinel whenever it
contains exactly one; the sentinels are distinct strings; extraction is
a total function (never an exception).  Unlike the claim, the empty
input returns `""` (neither sentinel), and the sentinels are in-band
strings, so a successfully decoded payload can coincide with one — the
claim's "exactly when" fails in both respects. -/
theorem text_extract_sentinels (t : List Char) (hne : t ≠ []) :
    (ZW_JOIN ∉ t → text_extract t = "No watermark found") ∧
    (t.count ZW_JOIN = 1 → text_extract t = "Corrupted watermark") ∧
    ("No watermark found" : String) ≠ "Corrupted watermark" := by
  refine ⟨?_, fun h => text_extract_one_marker t h, by decide⟩
  intro hnm
  unfold text_extract
  rw [if_neg hne, findIdx?_eq_none_of_not_mem t ZW_JOIN hnm]

/-- Witness instantiating the amended text-codec theorem. -/
theorem text_extract_sentinels_witness :
    (['x'] : List Char) ≠ [] ∧
    text_extract ['x'] = "No watermark found" ∧
    text_extract [ZW_JOIN] = "Corrupted watermark" :=
  ⟨by decide,
    (text_extract_sentinels ['x'] (by decide)).1 (by decide),
    (text_extract_sentinels [ZW_JOIN] (by decide)).2.1 (by decide)⟩

set_option maxRecDepth 4000 in
/-- **C7 (counterexample)** — The empty string contains no boundary
marker yet extraction returns `""`, not the "no watermark" sentinel;
and a text carrying the embedded payload `"No watermark found"`
contains two boundary markers yet extraction returns the very sentinel
string, so the sentinel is not exclusive to the no-boundary state. -/
theorem text_extract_counterexample :
    text_extract [] = "" ∧ ("" : String) ≠ "No watermark found" ∧
    text_extract (text_embed ['a','b'] ("No watermark found".toList))
      = "No watermark found" ∧
    2 ≤ (text_embed ['a','b'] ("No watermark found".toList)).count ZW_JOIN := by
  refine ⟨rfl, by decide, by decide, by decide⟩

/-! ## Fingerprint corpus cache (`enhanced_watermark.py`,
module-level `_assets_cache` with `_get_cached_assets`,
`invalidate_assets_cache`, `inject_asset_to_cache`) -/

/-- The `_assets_cache` module dict: the `"data"` key may be absent
(`None`), the `"expires"` key is read with default 0.  The row type is
abstract — cache behaviour does not inspect rows. -/
structure AssetsCache (R : Type) where
  data : Option (List R)
  expires : ℚ

/-- `_ASSETS_CACHE_TTL = 120` seconds. -/
def ASSETS_CACHE_TTL : ℚ := 120

/-- `_get_cached_assets()`.  `fetch` is the external persistence
collaborator: `some rows` models a reachable Supabase client returning
`res.data or []`; `none` models both failure paths (no client, raised
query), which return the cached data (or `[]` when absent) and leave
the cache untouched.  Returns the list the caller sees and the updated
cache. -/
def get_cached_assets {R : Type} (fetch : Option (List R)) (now : ℚ)
    (s : AssetsCache R) : List R × AssetsCache R :=
  match s.data with
  | some d =>
    if now < s.expires then (d, s)
    else
      match fetch with
      | none => (d, s)
      | some rows => (rows, ⟨some rows, now + ASSETS_CACHE_TTL⟩)
  | none =>
    match fetch with
    | none => ([], s)
    | some rows => (rows, ⟨some rows, now + ASSETS_CACHE_TTL⟩)

/-- `invalidate_assets_cache()`: `_assets_cache.clear()` removes both
keys, so the next `.get("data")` is `None` and `.get("expires", 0)`
is 0. -/
def invalidate_assets_cache {R : Type} (_s : AssetsCache R) : AssetsCache R :=
  ⟨none, 0⟩

/-- `inject_asset_to_cache(...)`: append to the live `data` list when
the cache holds one (leaving `expires` untouched), otherwise initialise
the cache to exactly the injected record with a fresh TTL. -/
def inject_asset_to_cache {R : Type} (r : R) (now : ℚ)
    (s : AssetsCache R) : AssetsCache R :=
  match s.data with
  | some d => ⟨some (d ++ [r]), s.expires⟩
  | none => ⟨some [r], now + ASSETS_CACHE_TTL⟩

/-- **C5** — Cache consistency: (a) after `invalidate()`, the next
`get_all()` reloads from the persistence collaborator and returns
exactly the persisted rows, at any time (in particular inside the old
TTL window); (b) after `inject(record)`, any `get_all()` that runs
before the cache would reload (i.e. any cache-hit read, the only reads
"performed before any subsequent reload") observes the injected record,
whatever the persistence collaborator would answer. -/
theorem cache_consistency {R : Type} (s : AssetsCache R)
    (persisted : List R) (now tInj tDet : ℚ) (r : R)
    (fetch : Option (List R)) :
    (get_cached_assets (some persisted) now (invalidate_assets_cache s)).1
      = persisted ∧
    (tDet < (inject_asset_to_cache r tInj s).expires →
      r ∈ (get_cached_assets fetch tDet (inject_asset_to_cache r tInj s)).1) := by
  constructor
  · rfl
  · intro ht
    cases hd : s.data with
    | some d =>
      unfold inject_asset_to_cache at ht ⊢
      rw [hd] at ht ⊢
      unfold get_cached_assets
      simp only
      rw [if_pos ht]
      exact List.mem_append_right d (List.mem_singleton.mpr rfl)
    | none =>
      unfold inject_asset_to_cache at ht ⊢
      rw [hd] at ht ⊢
      unfold get_cached_assets
      simp only
      rw [if_pos ht]
      exact List.mem_singleton.mpr rfl

/-- Witness instantiating the cache-consistency theorem on a concrete
cache. -/
theorem cache_consistency_witness :
    (get_cached_assets (some [2]) 0 (invalidate_assets_cache (⟨some [1], 50⟩ : AssetsCache ℕ))).1 = [2] ∧
    (7 : ℕ) ∈ (get_cached_assets (none : Option (List ℕ)) 20 (inject_asset_to_cache 7 10 ⟨some [1], 50⟩)).1 :=
  ⟨(cache_consistency (⟨some [1], 50⟩ : AssetsCache ℕ) [2] 0 10 20 7 none).1,
    (cache_consistency (⟨some [1], 50⟩ : AssetsCache ℕ) [2] 0 10 20 7 none).2
      (by with_unfolding_all decide)⟩

/-- **C10** — Injecting into an empty (cold or just-invalidated) cache
initialises it to exactly the one injected record with a full TTL, and
until that TTL expires every `get_all()` returns a snapshot containing
only that record and leaves the cache unchanged — for *every* possible
persistence answer `fetch`, i.e. without consulting the persistence
layer, so the rest of the persisted corpus is invisible in that
window. -/
theorem inject_empty_cache_masks_corpus {R : Type} (s : AssetsCache R)
    (r : R) (now : ℚ) (hempty : s.data = none)
    (fetch : Option (List R)) (t : ℚ) (ht : t < now + ASSETS_CACHE_TTL) :
    inject_asset_to_cache r now s
      = ⟨some [r], now + ASSETS_CACHE_TTL⟩ ∧
    get_cached_assets fetch t (inject_asset_to_cache r now s)
      = ([r], inject_asset_to_cache r now s) := by
  have hs : inject_asset_to_cache r now s
      = ⟨some [r], now + ASSETS_CACHE_TTL⟩ := by
    unfold inject_asset_to_cache
    rw [hempty]
  refine ⟨hs, ?_⟩
  rw [hs]
  unfold get_cached_assets
  simp only
  rw [if_pos ht]

/-- Witness instantiating the cold-cache injection theorem. -/
theorem inject_empty_cache_masks_corpus_witness :
    inject_asset_to_cache (3 : ℕ) 0 (⟨none, 0⟩ : AssetsCache ℕ)
      = ⟨some [3], 0 + ASSETS_CACHE_TTL⟩ ∧
    get_cached_assets (some [9]) 50 (inject_asset_to_cache (3 : ℕ) 0 ⟨none, 0⟩)
      = ([3], inject_asset_to_cache 3 0 ⟨none, 0⟩) :=
  inject_empty_cache_masks_corpus (⟨none, 0⟩ : AssetsCache ℕ) 3 0 rfl
    (some [9]) 50 (by with_unfolding_all decide)

/-! ## Candidate matcher (`EnhancedWatermarkService._find_all_matches`
and the `has_db_match` confirmation in `detect_watermark`) -/

/-- A corpus row as selected by `_get_cached_assets`
(`id, fingerprint, user_id, phash, timestamp, filename`).  `timestamp`
is `some t` when present and parseable by `int(...)`; `none` covers the
absent and unparseable cases (the `except: pass` path). -/
structure AssetRow where
  id : ℕ
  user_id : String
  filename : String
  fingerprint : List Char
  phash : Option (List Char)
  timestamp : Option ℤ
deriving DecidableEq

/-- `FingerprintEngine.fingerprint_similarity`: 0 when either input is
empty or the reference has fewer than 8 hex characters; otherwise the
fraction of matching bits over the shorter binary expansion. -/
def fingerprint_similarity (extracted original : List Char) : ℚ :=
  if extracted = [] ∨ original = [] ∨ original.length < 8 then 0
  else
    let ext_bin := hex_to_binary extracted
    let orig_bin := hex_to_binary original
    let min_len := min ext_bin.length orig_bin.length
    if min_len = 0 then 0
    else (((ext_bin.zip orig_bin).countP (fun p => p.1 == p.2) : ℚ)) / (min_len : ℚ)

/-- Hex digit value accepted by Python `int(s, 16)` (either case):
`'0'`–`'9'` map to 0–9 and `'a'`–`'f'` to 10–15. -/
def hexDigitVal? (c : Char) : Option ℕ :=
  let l := asciiLower c
  if '0' ≤ l ∧ l ≤ '9' then some (l.toNat - '0'.toNat)
  else if 'a' ≤ l ∧ l ≤ 'f' then some (l.toNat - 'a'.toNat + 10)
  else none

/-- `int(s, 16)` on a plain hex string: `none` models the `ValueError`
path (empty or non-hex input). -/
def hexStrToNat? (s : List Char) : Option ℕ :=
  if s = [] then none
  else s.foldl (fun acc c =>
    match acc, hexDigitVal? c with
    | some a, some v => some (16 * a + v)
    | _, _ => none) (some 0)

/-- `bin(v).count('1')`. -/
def popCountBin (v : ℕ) : ℕ := (Nat.toDigits 2 v).count '1'

/-- `_phash_hamming_dist(p1, p2)`: 999 for falsy inputs or parse
failure, else the Hamming distance of the two hex values. -/
def phash_hamming_dist (p1 p2 : List Char) : ℕ :=
  if p1 = [] ∨ p2 = [] then 999
  else
    match hexStrToNat? p1, hexStrToNat? p2 with
    | some x, some y => popCountBin (x ^^^ y)
    | _, _ => 999

/-- The per-row distance in `_find_all_matches`: computed only when
both `query_phash` and `row['phash']` are truthy, else left at 999. -/
def row_phash_dist (qp : Option (List Char)) (row : AssetRow) : ℕ :=
  match qp, row.phash with
  | some q, some p => if q ≠ [] ∧ p ≠ [] then phash_hamming_dist q p else 999
  | _, _ => 999

/-- The temporal-proximity test: an embedded timestamp within 300
seconds of the row's recorded timestamp. -/
def tsBonus (winfo : Option ℤ) (row : AssetRow) : Bool :=
  match winfo, row.timestamp with
  | some wt, some db => decide (|wt - db| < 300)
  | _, _ => false

/-- The raw `combined_score` of one row:
`sim*100`, plus `(1 - dist/20)*30` within the pHash threshold (20),
plus 10 on temporal proximity. -/
def row_combined (extracted : List Char) (qp : Option (List Char))
    (winfo : Option ℤ) (row : AssetRow) : ℚ :=
  let sim := fingerprint_similarity extracted row.fingerprint
  let pd := row_phash_dist qp row
  let s1 := sim * 100
  let s2 := if pd ≤ 20 then s1 + (1 - (pd : ℚ) / 20) * 30 else s1
  if tsBonus winfo row then s2 + 10 else s2

/-- Python `round(x, 2)` (half-even at two decimals). -/
def round2 (x : ℚ) : ℚ := (npRound (x * 100) : ℚ) / 100

/-- `display_name or uid or row.get('user_id')`. -/
def author_name_of (profiles : String → Option String) (user_id : String) : String :=
  match profiles user_id with
  | some dn => if dn = "" then user_id else dn
  | none => user_id

/-- One entry of the `matches` list (the constant fields
`is_original_author = True` and `match_method` are omitted; `similarity`
carries `round(combined_score, 2)`, the key the final sort uses). -/
structure MatchEntry where
  id : ℕ
  user_id : String
  author_name : String
  similarity : ℚ
  fingerprint_sim : ℚ
  phash_distance : ℕ
  match_confidence : String
deriving DecidableEq

def mkMatchEntry (profiles : String → Option String) (extracted : List Char)
    (qp : Option (List Char)) (winfo : Option ℤ) (row : AssetRow) : MatchEntry :=
  let sim := fingerprint_similarity extracted row.fingerprint
  let combined := row_combined extracted qp winfo row
  ⟨row.id, row.user_id, author_name_of profiles row.user_id,
    round2 combined, round2 (sim * 100), row_phash_dist qp row,
    if 85 < combined then "HIGH" else if 70 < combined then "MEDIUM" else "LOW"⟩

/-- Stable insertion into a descending-by-`similarity` list — models
`matches.sort(key=lambda x: x['similarity'], reverse=True)` (the proven
properties are insensitive to tie order). -/
def insertDesc (a : MatchEntry) : List MatchEntry → List MatchEntry
  | [] => [a]
  | b :: t => if a.similarity ≤ b.similarity then b :: insertDesc a t else a :: b :: t

def sortDescBySimilarity : List MatchEntry → List MatchEntry
  | [] => []
  | a :: t => insertDesc a (sortDescBySimilarity t)

/-- `min_similarity` default of `_find_all_matches`. -/
def MIN_SIMILARITY : ℚ := 30 / 100

/-- `top_k` default of `_find_all_matches`. -/
def TOP_K : ℕ := 10

/-- `EnhancedWatermarkService._find_all_matches` with its default
thresholds: score every cached row, keep those whose raw combined score
reaches `min_similarity * 100` (= 30), sort descending by the reported
similarity and truncate to the top 10. -/
def find_all_matches (extracted : List Char) (qp : Option (List Char))
    (winfo : Option ℤ) (assets : List AssetRow)
    (profiles : String → Option String) : List MatchEntry :=
  if assets = [] then []
  else
    let kept := assets.filterMap (fun row =>
      if MIN_SIMILARITY * 100 ≤ row_combined extracted qp winfo row
      then some (mkMatchEntry profiles extracted qp winfo row) else none)
    (sortDescBySimilarity kept).take TOP_K

/-- `best_match = all_matches[0] if all_matches else None;`
`has_db_match = best_match is not None and best_match['similarity'] >= 60`
(`detect_watermark`, the 60 % confirmation floor). -/
def has_db_match (result : List MatchEntry) : Bool :=
  match result.head? with
  | some b => decide ((60 : ℚ) ≤ b.similarity)
  | none => false

theorem insertDesc_perm (a : MatchEntry) (l : List MatchEntry) :
    List.Perm (insertDesc a l) (a :: l) := by
  induction l with
  | nil => exact List.Perm.refl _
  | cons b t ih =>
    unfold insertDesc
    by_cases hc : a.similarity ≤ b.similarity
    · rw [if_pos hc]
      exact ((ih.cons b).trans (List.Perm.swap a b t))
    · rw [if_neg hc]

theorem sortDesc_perm (l : List MatchEntry) : List.Perm (sortDescBySimilarity l) l := by
  induction l with
  | nil => exact List.Perm.refl _
  | cons a t ih =>
    exact (insertDesc_perm a (sortDescBySimilarity t)).trans (ih.cons a)

theorem insertDesc_sorted (a : MatchEntry) (l : List MatchEntry)
    (h : l.Pairwise (fun x y => y.similarity ≤ x.similarity)) :
    (insertDesc a l).Pairwise (fun x y => y.similarity ≤ x.similarity) := by
  induction l with
  | nil => exact List.pairwise_singleton _ a
  | cons b t ih =>
    rw [List.pairwise_cons] at h
    unfold insertDesc
    by_cases hc : a.similarity ≤ b.similarity
    · rw [if_pos hc]
      rw [List.pairwise_cons]
      refine ⟨?_, ih h.2⟩
      intro x hx
      rcases List.mem_cons.mp ((insertDesc_perm a t).mem_iff.mp hx) with rfl | hxt
      · exact hc
      · exact h.1 x hxt
    · rw [if_neg hc]
      rw [List.pairwise_cons]
      refine ⟨?_, List.pairwise_cons.mpr h⟩
      intro x hx
      rcases List.mem_cons.mp hx with rfl | hxt
      · exact le_of_lt (lt_of_not_le hc)
      · exact le_trans (h.1 x hxt) (le_of_lt (lt_of_not_le hc))

theorem sortDesc_sorted (l : List MatchEntry) :
    (sortDescBySimilarity l).Pairwise (fun x y => y.similarity ≤ x.similarity) := by
  induction l with
  | nil => exact List.Pairwise.nil
  | cons a t ih => exact insertDesc_sorted a _ ih

/-- **C6 (amended)** — `_find_all_matches` returns a list sorted in
descending order of the reported (2-decimal-rounded) combined score,
truncated to at most the top 10; every reported entry comes from a
corpus row whose raw combined score reaches the matcher's reporting
cutoff of 30 (`min_similarity = 0.30` × 100); conversely, when the
corpus fits inside the top-K bound, *every* row reaching that cutoff is
reported — including rows below the 60 % confirmation floor, which
`detect_watermark` treats as unconfirmed (`has_db_match` requires the
best candidate's score to reach 60).  Unlike the claim, rows whose
combined score falls below 30 are silently dropped, not reported. -/
theorem find_all_matches_ranking (extracted : List Char)
    (qp : Option (List Char)) (winfo : Option ℤ) (assets : List AssetRow)
    (profiles : String → Option String) :
    (find_all_matches extracted qp winfo assets profiles).Pairwise
      (fun x y => y.similarity ≤ x.similarity) ∧
    (find_all_matches extracted qp winfo assets profiles).length ≤ TOP_K ∧
    (∀ e ∈ find_all_matches extracted qp winfo assets profiles,
      ∃ row ∈ assets, e = mkMatchEntry profiles extracted qp winfo row ∧
        MIN_SIMILARITY * 100 ≤ row_combined extracted qp winfo row) ∧
    (assets.length ≤ TOP_K → ∀ row ∈ assets,
      MIN_SIMILARITY * 100 ≤ row_combined extracted qp winfo row →
      mkMatchEntry profiles extracted qp winfo row ∈
        find_all_matches extracted qp winfo assets profiles) ∧
    (has_db_match (find_all_matches extracted qp winfo assets profiles) = true →
      ∃ b, (find_all_matches extracted qp winfo assets profiles).head? = some b ∧
        (60 : ℚ) ≤ b.similarity) := by
  by_cases hempty : assets = []
  · subst hempty
    refine ⟨?_, ?_, ?_, ?_, ?_⟩ <;> simp [find_all_matches, has_db_match, TOP_K]
  · have hunf : find_all_matches extracted qp winfo assets profiles =
        (sortDescBySimilarity (assets.filterMap (fun row =>
          if MIN_SIMILARITY * 100 ≤ row_combined extracted qp winfo row
          then some (mkMatchEntry profiles extracted qp winfo row) else none))).take TOP_K := by
      unfold find_all_matches
      rw [if_neg hempty]
    set ms := assets.filterMap (fun row =>
      if MIN_SIMILARITY * 100 ≤ row_combined extracted qp winfo row
      then some (mkMatchEntry profiles extracted qp winfo row) else none) with hms
    refine ⟨?_, ?_, ?_, ?_, ?_⟩
    · rw [hunf]
      exact (sortDesc_sorted ms).sublist (List.take_sublist _ _)
    · rw [hunf]
      exact le_trans (List.length_take_le _ _) (le_refl _)
    · intro e he
      rw [hunf] at he
      have hmem : e ∈ sortDescBySimilarity ms :=
        List.mem_of_mem_take he
      have hmem2 : e ∈ ms := (sortDesc_perm ms).mem_iff.mp hmem
      rw [hms] at hmem2
      obtain ⟨row, hrow, hval⟩ := List.mem_filterMap.mp hmem2
      by_cases hcut : MIN_SIMILARITY * 100 ≤ row_combined extracted qp winfo row
      · rw [if_pos hcut] at hval
        exact ⟨row, hrow, (Option.some_injective _ hval).symm, hcut⟩
      · rw [if_neg hcut] at hval
        exact absurd hval (Option.noConfusion)
    · intro hsmall row hrow hcut
      rw [hunf]
      have hlen : (sortDescBySimilarity ms).length ≤ TOP_K := by
        rw [(sortDesc_perm ms).length_eq, hms]
        exact le_trans (List.length_filterMap_le _ _) hsmall
      rw [List.take_of_length_le hlen]
      apply (sortDesc_perm ms).mem_iff.mpr
      rw [hms]
      apply List.mem_filterMap.mpr
      exact ⟨row, hrow, by rw [if_pos hcut]⟩
    · intro hdb
      unfold has_db_match at hdb
      cases hh : (find_all_matches extracted qp winfo assets profiles).head? with
      | none => rw [hh] at hdb; simp at hdb
      | some b =>
        rw [hh] at hdb
        simp only [decide_eq_true_eq] at hdb
        exact ⟨b, rfl, hdb⟩

/-- A corpus row whose fingerprint cannot match the query at all. -/
def cexRow : AssetRow :=
  ⟨1, "owner", "art.png", ['f','f','f','f','f','f','f','f'], none, none⟩

/-- **C6 (counterexample)** — A corpus row scoring 0 (far below the
60 % floor) is a below-floor candidate, yet `_find_all_matches` returns
the empty list — the row is silently dropped, not reported as a
low-confidence candidate, because 0 is also below the reporting cutoff
of 30. -/
theorem find_all_matches_counterexample :
    find_all_matches ['0','0','0','0','0','0','0','0'] none none
      [cexRow] (fun _ => none) = [] ∧
    row_combined ['0','0','0','0','0','0','0','0'] none none cexRow = 0 ∧
    ((0 : ℚ) < 60) ∧ (1 : ℕ) ≤ TOP_K := by
  refine ⟨by with_unfolding_all decide, by with_unfolding_all decide,
    by norm_num, by decide⟩

/-- A corpus row identical to the query fingerprint. -/
def hitRow : AssetRow :=
  ⟨2, "owner", "art.png", ['a','b','c','d','0','1','2','3'], none, none⟩

/-- Witness instantiating the ranking theorem: a perfectly matching
row reaches the cutoff and is reported. -/
theorem find_all_matches_ranking_witness :
    ((1 : ℕ) ≤ TOP_K) ∧
    mkMatchEntry (fun _ => none) ['a','b','c','d','0','1','2','3'] none none hitRow ∈
      find_all_matches ['a','b','c','d','0','1','2','3'] none none [hitRow] (fun _ => none) :=
  ⟨by decide,
    (find_all_matches_ranking ['a','b','c','d','0','1','2','3'] none none
      [hitRow] (fun _ => none)).2.2.2.1 (by decide) hitRow (by decide)
      (by with_unfolding_all decide)⟩

/-! ## Video detection sampler (`VideoWatermarkService.detect_video`) -/

/-- Python `s.strip('0')`: remove leading and trailing `'0'`
characters. -/
def pyStrip0 (l : List Char) : List Char :=
  ((l.dropWhile (fun c => c == '0')).reverse.dropWhile (fun c => c == '0')).reverse

/-- The acceptance test of `detect_video`:
`len(extracted.strip('0')) >= 8`. -/
def videoAccept (fp : List Char) : Bool :=
  decide (8 ≤ (pyStrip0 fp).length)

theorem adaptive_restores_state (img : YPlane) (bs len : ℕ) (s₀ : EngineState) :
    (extract_dct_adaptive img bs len s₀).2.1 = s₀ := by
  unfold extract_dct_adaptive
  by_cases hs : 15 ≤ signalStrength (extract_dct img bs s₀.qim_step len)
  · rw [if_pos hs]
  · rw [if_neg hs]

/-- The `while cap.isOpened()` loop of `detect_video`: read a frame,
extract adaptively on every `detect_step`-th index, stop at the first
acceptance (`break`), stop after `max_frames` frames.  The engine state
is threaded exactly as the shared `engine` object is. -/
def detectLoop : List YPlane → ℕ → ℕ → ℕ → EngineState →
    Option (List Char) × ℕ × EngineState
  | [], idx, _, _, s => (none, idx, s)
  | f :: rest, idx, max_frames, step, s =>
    if idx % step = 0 then
      if videoAccept (extract_dct_adaptive f 8 256 s).1.1 then
        (some (extract_dct_adaptive f 8 256 s).1.1, idx,
          (extract_dct_adaptive f 8 256 s).2.1)
      else if max_frames ≤ idx + 1 then
        (none, idx + 1, (extract_dct_adaptive f 8 256 s).2.1)
      else detectLoop rest (idx + 1) max_frames step
        (extract_dct_adaptive f 8 256 s).2.1
    else if max_frames ≤ idx + 1 then (none, idx + 1, s)
    else detectLoop rest (idx + 1) max_frames step s

/-- `if fps <= 0: fps = 25` (`fps : ℕ` since `int(cap.get(...))` of a
frame rate is non-negative). -/
def videoFps (fps : ℕ) : ℕ := if fps = 0 then 25 else fps

/-- `max_frames = int(max(1, fps * max_seconds))` with `max_seconds = 10`. -/
def videoMaxFrames (fps : ℕ) : ℕ := max 1 (videoFps fps * 10)

/-- `detect_step = max(1, int(round(fps * detect_every_seconds)))` with
`detect_every_seconds = 0.5`. -/
def videoStep (fps : ℕ) : ℕ := max 1 (npRound ((videoFps fps : ℚ) / 2)).toNat

/-- `VideoWatermarkService.detect_video` on the decoded frame
sequence, with a fresh engine at the class default step 30.  Returns
the extracted fingerprint (if any) and the final frame index. -/
def detect_video (frames : List YPlane) (fps : ℕ) : Option (List Char) × ℕ :=
  let r := detectLoop frames 0 (videoMaxFrames fps) (videoStep fps) ⟨30⟩
  (r.1, r.2.1)

/-- The fingerprints of the sampled frames, in frame order: every frame
with index below the `max_frames` bound and divisible by the sampling
step, extracted through the Adaptive Recovery Controller on a fresh
engine. -/
def sampledExtracts (frames : List YPlane) (mf step : ℕ) : List (List Char) :=
  (((List.enumFrom 0 frames).filter
    (fun p => decide (p.1 < mf) && decide (p.1 % step = 0))).map
    (fun p => (extract_dct_adaptive p.2 8 256 ⟨30⟩).1.1))

theorem enumFrom_fst_le {α : Type} (n : ℕ) (l : List α) :
    ∀ p ∈ List.enumFrom n l, n ≤ p.1 := by
  induction l generalizing n with
  | nil => intro p hp; simp at hp
  | cons a t ih =>
    intro p hp
    rcases List.mem_cons.mp hp with rfl | hp2
    · exact le_refl n
    · exact le_trans (Nat.le_succ n) (ih (n + 1) p hp2)

theorem enumFrom_filter_past_bound {mf step n : ℕ} (hle : mf ≤ n)
    (l : List YPlane) :
    (List.enumFrom n l).filter
      (fun p => decide (p.1 < mf) && decide (p.1 % step = 0)) = [] := by
  apply List.filter_eq_nil_iff.mpr
  intro p hp
  have := enumFrom_fst_le n l p hp
  simp only [Bool.and_eq_true, decide_eq_true_eq, not_and]
  intro h1
  omega

theorem detectLoop_eq_find (frames : List YPlane) (mf step : ℕ) :
    ∀ idx, idx < mf →
    (detectLoop frames idx mf step ⟨30⟩).1 =
      ((((List.enumFrom idx frames).filter
        (fun p => decide (p.1 < mf) && decide (p.1 % step = 0))).map
        (fun p => (extract_dct_adaptive p.2 8 256 ⟨30⟩).1.1)).find? videoAccept) := by
  induction frames with
  | nil => intro idx _; rfl
  | cons f rest ih =>
    intro idx hidx
    rw [show List.enumFrom idx (f :: rest)
      = (idx, f) :: List.enumFrom (idx + 1) rest from rfl]
    unfold detectLoop
    by_cases hsam : idx % step = 0
    · rw [if_pos hsam]
      have hfc : List.filter (fun p => decide (p.1 < mf) && decide (p.1 % step = 0))
          ((idx, f) :: List.enumFrom (idx + 1) rest)
          = (idx, f) :: List.filter (fun p => decide (p.1 < mf) && decide (p.1 % step = 0))
            (List.enumFrom (idx + 1) rest) := by
        rw [List.filter_cons]
        simp [hidx, hsam]
      rw [hfc, List.map_cons]
      by_cases hacc : videoAccept (extract_dct_adaptive f 8 256 ⟨30⟩).1.1
      · rw [if_pos hacc, List.find?_cons_of_pos _ hacc]
      · rw [if_neg hacc,
          List.find?_cons_of_neg _ (by simpa using hacc)]
        by_cases hmf : mf ≤ idx + 1
        · rw [if_pos hmf, enumFrom_filter_past_bound hmf rest]
          rfl
        · rw [if_neg hmf, adaptive_restores_state f 8 256 ⟨30⟩]
          exact ih (idx + 1) (by omega)
    · rw [if_neg hsam]
      have hfc : List.filter (fun p => decide (p.1 < mf) && decide (p.1 % step = 0))
          ((idx, f) :: List.enumFrom (idx + 1) rest)
          = List.filter (fun p => decide (p.1 < mf) && decide (p.1 % step = 0))
            (List.enumFrom (idx + 1) rest) := by
        rw [List.filter_cons]
        simp [hsam]
      rw [hfc]
      by_cases hmf : mf ≤ idx + 1
      · rw [if_pos hmf, enumFrom_filter_past_bound hmf rest]
        rfl
      · rw [if_neg hmf]
        exact ih (idx + 1) (by omega)

/-- **C9 (amended)** — Video detection is a strict first-hit scan: the
result is exactly `find?` over the sampled frames in frame order, i.e.
the fingerprint of the *first* sampled frame passing the acceptance
test, with no later frame influencing the result.  The acceptance test,
however, is `len(extracted.strip('0')) >= 8` — at least 8 characters
after removing leading/trailing zeros — which is implied by, but weaker
than, the claim's "signal strength (count of non-zero hex characters)
at or above the minimum threshold". -/
theorem detect_video_first_hit (frames : List YPlane) (fps : ℕ) :
    (detect_video frames fps).1 =
      (sampledExtracts frames (videoMaxFrames fps) (videoStep fps)).find?
        videoAccept := by
  unfold detect_video sampledExtracts
  exact detectLoop_eq_find frames _ _ 0
    (lt_of_lt_of_le Nat.zero_lt_one (le_max_left _ _))

/-- A frame whose 32 embedded bits spell `90000009`: only blocks 0, 3,
28 and 31 (row-major block index `(r/8)*8 + c/8`) carry the odd QIM
lattice value 15 for Q = 30. -/
def frameWeak : YPlane :=
  ⟨33, 65, fun p =>
    if (p.1 / 8) * 8 + p.2 / 8 = 0 ∨ (p.1 / 8) * 8 + p.2 / 8 = 3
      ∨ (p.1 / 8) * 8 + p.2 / 8 = 28 ∨ (p.1 / 8) * 8 + p.2 / 8 = 31
    then 15 else 0⟩

/-- A frame whose every block carries bit 1: extraction yields
`ffffffff`, 8 non-zero characters. -/
def frameStrong : YPlane := ⟨33, 65, fun _ => 15⟩

/-- **C9 (counterexample)** — With two sampled frames, the first
extracting `90000009` (signal strength 2) and the second `ffffffff`
(signal strength 8), `detect_video` stops at the *first* frame and
returns `90000009`: the accepted frame's signal strength (2) is below
the 8-character threshold while a later sampled frame meets it, so the
result is not determined by the first frame whose *signal strength*
reaches the minimum threshold. -/
theorem detect_video_counterexample :
    (detect_video [frameWeak, frameStrong] 2).1
      = some ['9','0','0','0','0','0','0','9'] ∧
    signalStrength ['9','0','0','0','0','0','0','9'] = 2 ∧
    signalStrength (extract_dct_adaptive frameStrong 8 256 ⟨30⟩).1.1 = 8 ∧
    (2 : ℕ) < 8 := by
  refine ⟨by with_unfolding_all decide, by decide,
    by with_unfolding_all decide, by decide⟩

end AigcGuard
